import Mathlib

/-!
Verification of the FractalForest L-system core (`src/generation/lsystem.py`,
`src/generation/forest.py`) against its natural-language specification.

The Python code is shallowly embedded:
* instruction strings become `List Char`;
* the rules dictionary becomes an association list `List (Char × List Char)`;
* `random.*` draws become explicit streams passed as parameters;
* numpy float arrays become exact real vectors (`V3` over `ℝ`), so float
  drift is not modelled but all guards, fallbacks and clamps are.
-/

namespace FF

/-- Instruction strings, modelling Python `str` values character by character. -/
abbrev LStr := List Char

/-- The rules dictionary `self.rules`, modelled as an association list
(first binding wins, like a Python dict with unique keys). -/
abbrev Rules := List (Char × LStr)

/-- Bracket weight of one character: +1 for `[`, -1 for `]`, 0 otherwise. -/
def brk (c : Char) : ℤ :=
  if c = '[' then 1 else if c = ']' then -1 else 0

/-- Running bracket balance of a string: number of `[` minus number of `]`. -/
def bal (s : LStr) : ℤ := (s.map brk).sum

/-- Every prefix of the string has nonnegative bracket balance, i.e. a
left-to-right running counter (+1 on `[`, -1 on `]`) never goes negative. -/
def nonneg (s : LStr) : Prop := ∀ n : ℕ, 0 ≤ bal (s.take n)

/-- The string is bracket-balanced: equal numbers of `[` and `]`, and the
running counter never goes negative. -/
def balancedStr (s : LStr) : Prop := bal s = 0 ∧ nonneg s

/-- Executable prefix-balance scanner (accumulator `a` is the balance so far). -/
def nonnegB : ℤ → LStr → Bool
  | _, [] => true
  | a, c :: rest => decide (0 ≤ a + brk c) && nonnegB (a + brk c) rest

/-- Executable test for `balancedStr`. -/
def balancedB (s : LStr) : Bool := nonnegB 0 s && decide (bal s = 0)

theorem bal_nil : bal [] = 0 := rfl

theorem bal_cons (c : Char) (s : LStr) : bal (c :: s) = brk c + bal s := by
  simp [bal]

theorem bal_append (u v : LStr) : bal (u ++ v) = bal u + bal v := by
  simp [bal]

theorem nonnegB_iff (s : LStr) : ∀ a : ℤ, 0 ≤ a →
    (nonnegB a s = true ↔ ∀ n : ℕ, 0 ≤ a + bal (s.take n)) := by
  induction s with
  | nil =>
    intro a ha
    simp [nonnegB, bal, ha]
  | cons c rest ih =>
    intro a ha
    constructor
    · intro h n
      rw [nonnegB, Bool.and_eq_true, decide_eq_true_eq] at h
      match n with
      | 0 => simpa [bal] using ha
      | Nat.succ m =>
        have := (ih (a + brk c) h.1).mp h.2 m
        simpa [bal_cons, add_assoc] using this
    · intro h
      have h1 : 0 ≤ a + brk c := by
        have := h 1
        simpa [bal_cons, bal] using this
      rw [nonnegB, Bool.and_eq_true, decide_eq_true_eq]
      refine ⟨h1, (ih (a + brk c) h1).mpr ?_⟩
      intro m
      have := h (m + 1)
      simpa [bal_cons, add_assoc] using this

theorem nonneg_iff_nonnegB (s : LStr) : nonneg s ↔ nonnegB 0 s = true := by
  rw [nonnegB_iff s 0 le_rfl]
  unfold nonneg
  constructor
  · intro h n; simpa using h n
  · intro h n; simpa using h n

theorem balanced_iff_balancedB (s : LStr) : balancedStr s ↔ balancedB s = true := by
  rw [balancedStr, balancedB, Bool.and_eq_true, decide_eq_true_eq,
    nonneg_iff_nonnegB, and_comm]

theorem nonneg_take (s : LStr) (k : ℕ) (h : nonneg s) : nonneg (s.take k) := by
  intro n
  rw [List.take_take]
  exact h (min n k)

theorem balanced_append (u v : LStr) (hu : balancedStr u) (hv : balancedStr v) :
    balancedStr (u ++ v) := by
  refine ⟨by rw [bal_append, hu.1, hv.1]; ring, ?_⟩
  intro n
  rw [List.take_append_eq_append_take, bal_append]
  rcases le_or_lt n u.length with h | h
  · have : v.take (n - u.length) = [] := by
      rw [Nat.sub_eq_zero_of_le h, List.take_zero]
    rw [this, bal_nil]
    simpa using hu.2 n
  · rw [List.take_of_length_le h.le, hu.1]
    simpa using hv.2 (n - u.length)

/-- Inserting a balanced string at any position of a balanced string keeps it
balanced (used for the complexity-injection insertions). -/
theorem balanced_insert (l w : LStr) (p : ℕ) (hl : balancedStr l)
    (hw : balancedStr w) : balancedStr (l.take p ++ w ++ l.drop p) := by
  constructor
  · rw [bal_append, bal_append, hw.1]
    have h5 : bal (l.take p) + bal (l.drop p) = bal l := by
      rw [← bal_append, List.take_append_drop]
    have hl1 : bal l = 0 := hl.1
    omega
  · intro n
    rw [List.take_append_eq_append_take, bal_append]
    rcases le_or_lt n (l.take p ++ w).length with h | h
    · have hv : (l.drop p).take (n - (l.take p ++ w).length) = [] := by
        rw [Nat.sub_eq_zero_of_le h, List.take_zero]
      rw [hv, bal_nil, add_zero]
      rw [List.take_append_eq_append_take, bal_append]
      rcases le_or_lt n (l.take p).length with h2 | h2
      · have : w.take (n - (l.take p).length) = [] := by
          rw [Nat.sub_eq_zero_of_le h2, List.take_zero]
        rw [this, bal_nil, add_zero, List.take_take]
        exact hl.2 (min n p)
      · rw [List.take_of_length_le h2.le]
        have h3 : 0 ≤ bal (l.take p) := by
          have := hl.2 p
          simpa using this
        have h4 : 0 ≤ bal (w.take (n - (l.take p).length)) := hw.2 _
        omega
    · rw [List.take_of_length_le h.le, bal_append, hw.1]
      set m := n - (l.take p ++ w).length with hm
      have : bal (l.take p) + 0 + bal ((l.drop p).take m) =
          bal (l.take p ++ (l.drop p).take m) := by
        rw [bal_append]; ring
      rw [this]
      have : l.take p ++ (l.drop p).take m = l.take (p + m) := by
        rcases le_or_lt p l.length with hp | hp
        · rw [List.take_add]
        · rw [List.take_of_length_le hp.le, List.drop_eq_nil_of_le hp.le]
          simp [List.take_of_length_le (le_trans hp.le (Nat.le_add_right _ _))]
      rw [this]
      exact hl.2 (p + m)

/-! ### The rewriter: `LSystem.generate` and its helpers -/

/-- Image of one character under the rules dictionary: the rule replacement if
the character has a rule, otherwise the character itself
(`if char in self.rules: next_gen += self.rules[char] else: next_gen += char`). -/
def applyRulesChar (rules : Rules) (c : Char) : LStr :=
  match rules.lookup c with
  | some r => r
  | none => [c]

/-- One expansion generation: scan `current` left to right, appending each
character's image to the accumulator, exactly like the Python inner loop
building `next_gen`. -/
def applyRules (rules : Rules) (s : LStr) : LStr :=
  s.foldl (fun acc c => acc ++ applyRulesChar rules c) []

/-- `current.rsplit('[', 1)[0]`: everything before the last `[`; the whole
string if it contains no `[`. -/
def dropLastBracket : LStr → LStr
  | [] => []
  | c :: rest =>
    if '[' ∈ rest then c :: dropLastBracket rest
    else if c = '[' then []
    else c :: rest

/-- The truncation-repair loop
`while '[' in current and current.count('[') > current.count(']'):
    current = current.rsplit('[', 1)[0]`.
Each iteration strictly shortens the string, so fuel `s.length` suffices. -/
def stripLoop : ℕ → LStr → LStr
  | 0, s => s
  | fuel + 1, s =>
    if '[' ∈ s ∧ s.count ']' < s.count '[' then stripLoop fuel (dropLastBracket s)
    else s

/-- Truncation repair applied after cutting the string at the length cap. -/
def stripUnbalanced (s : LStr) : LStr := stripLoop s.length s

/-- The `for i in range(iterations)` loop of `LSystem.generate`: expand,
and if the result exceeds 80000 characters truncate, repair, and stop
(`break`). -/
def generateLoop (rules : Rules) : LStr → ℕ → LStr
  | current, 0 => current
  | current, n + 1 =>
    let next := applyRules rules current
    if 80000 < next.length then stripUnbalanced (next.take 80000)
    else generateLoop rules next n

/-- `LSystem._is_too_simple`: detects strings dominated by `F` with almost no
branching or rotation. -/
def isTooSimple (s : LStr) : Bool :=
  let fCount := s.count 'F'
  let branchSymbols := s.count '[' + s.count ']'
  let rotationSymbols := s.count '+' + s.count '-' + s.count '&' +
    s.count '^' + s.count '\\' + s.count '/'
  let isSimple : Bool :=
    decide ((10 < fCount ∧ branchSymbols < 4 ∧ rotationSymbols < 4) ∨
      (s.length < 20 ∧ 3 < fCount))
  if ¬ isSimple = true ∧ 5 < fCount then
    -- non_f_chars is empty iff every character is 'F'
    isSimple || s.all (fun c => c = 'F')
  else isSimple

/-- `"F[+F][-F]FF"`, the replacement used by
`self.current_string.replace("FFF", "F[+F][-F]FF", 2)`. -/
def fffFix : LStr := ['F', '[', '+', 'F', ']', '[', '-', 'F', ']', 'F', 'F']

/-- Python `str.replace("FFF", new, n)`: scan left to right, replace up to `n`
non-overlapping occurrences of `"FFF"`, never rescanning the inserted text. -/
def replaceFFF : LStr → ℕ → LStr
  | s, 0 => s
  | 'F' :: 'F' :: 'F' :: rest, n + 1 => fffFix ++ replaceFFF rest n
  | [], _ + 1 => []
  | c :: rest, n + 1 => c :: replaceFFF rest (n + 1)

/-- The seven branch patterns `random.choice` picks from in the
`_add_complexity` main loop. -/
def branchPattern7 : Fin 7 → LStr
  | 0 => ['[', '+', 'F', 'X', ']']
  | 1 => ['[', '-', 'F', 'X', ']']
  | 2 => ['[', '/', 'F', 'X', ']']
  | 3 => ['[', '\\', 'F', 'X', ']']
  | 4 => ['[', '+', 'F', ']', '[', '-', 'F', ']']
  | 5 => ['[', '&', 'F', ']']
  | 6 => ['[', '^', 'F', ']']

/-- The four branch patterns of the final guaranteed insertion in
`_add_complexity`. -/
def branchPattern4 : Fin 4 → LStr
  | 0 => ['[', '+', 'F', 'X', ']']
  | 1 => ['[', '-', 'F', 'X', ']']
  | 2 => ['[', '&', 'F', 'X', ']']
  | 3 => ['[', '^', 'F', 'X', ']']

/-- RNG draws consumed by `_add_complexity`: `dec` models the successive
`random.random() < branch_probability` outcomes, `choice7` the successive
`random.choice` pattern picks, `pickIdx` the `random.choice(f_indices)` pick
(as an index into that list) and `choice4` the final pattern pick. -/
structure GenRng where
  dec : ℕ → Bool
  choice7 : ℕ → Fin 7
  pickIdx : ℕ
  choice4 : Fin 4

/-- Main loop of `_add_complexity`: copy each character; after an `F` that is
not the last character (`i < len(string) - 1` holds iff the rest is nonempty),
draw `should_add`; if it (or the minimum-branch quota) fires, insert a random
branch pattern. Returns the rewritten string and `branches_added`. -/
def acLoop (rng : GenRng) : LStr → ℕ → ℕ → LStr × ℕ
  | [], _, added => ([], added)
  | c :: rest, decIdx, added =>
    if c = 'F' ∧ rest ≠ [] then
      if rng.dec decIdx = true ∨ added < 3 then
        let r := acLoop rng rest (decIdx + 1) (added + 1)
        (c :: (branchPattern7 (rng.choice7 added) ++ r.1), r.2)
      else
        let r := acLoop rng rest (decIdx + 1) added
        (c :: r.1, r.2)
    else
      let r := acLoop rng rest decIdx added
      (c :: r.1, r.2)

/-- Indices of the `F` characters in a string (`f_indices`). -/
def fIndices : LStr → List ℕ
  | [] => []
  | c :: rest =>
    (if c = 'F' then [0] else []) ++ (fIndices rest).map (· + 1)

/-- `LSystem._add_complexity`: the main insertion loop followed by one more
guaranteed insertion when the string is long enough but too few branches were
added. -/
def addComplexity (rng : GenRng) (s : LStr) : LStr :=
  let r := acLoop rng s 0 0
  let result := r.1
  if 10 < s.length ∧ r.2 < 3 then
    let fIdx := fIndices result
    if fIdx ≠ [] then
      let insertPos := fIdx.getD (rng.pickIdx % fIdx.length) 0 + 1
      result.take insertPos ++ branchPattern4 rng.choice4 ++ result.drop insertPos
    else result
  else result

/-- `LSystem.generate`: run the expansion loop, then apply the too-simple
corrective pass — the `"FFF"` replacement when the string has no `[` but has
an `F`, otherwise `_add_complexity`. -/
def lsGenerate (rules : Rules) (axiomStr : LStr) (iterations : ℕ)
    (rng : GenRng) : LStr :=
  let current := generateLoop rules axiomStr iterations
  if isTooSimple current = true then
    if '[' ∉ current ∧ 'F' ∈ current then replaceFFF current 2
    else addComplexity rng current
  else current

/-! ### Bracket-balance preservation through the rewriter -/

theorem balanced_nil : balancedStr [] := by
  refine ⟨rfl, fun n => ?_⟩
  simp [bal]

theorem bal_eq_counts (s : LStr) :
    bal s = (s.count '[' : ℤ) - (s.count ']' : ℤ) := by
  induction s with
  | nil => simp [bal]
  | cons c rest ih =>
    rw [bal_cons, ih]
    rcases eq_or_ne c '[' with h1 | h1
    · subst h1
      have hb : brk '[' = 1 := by decide
      rw [hb, List.count_cons_self,
        List.count_cons_of_ne (show ']' ≠ '[' by decide) rest]
      push_cast
      ring
    · rcases eq_or_ne c ']' with h2 | h2
      · subst h2
        have hb : brk ']' = -1 := by decide
        rw [hb, List.count_cons_self,
          List.count_cons_of_ne (show '[' ≠ ']' by decide) rest]
        push_cast
        ring
      · have hb : brk c = 0 := by simp [brk, h1, h2]
        rw [hb, List.count_cons_of_ne (Ne.symm h1), List.count_cons_of_ne (Ne.symm h2)]
        ring

theorem bal_of_brkFree (s : LStr) (h : ∀ c ∈ s, brk c = 0) : bal s = 0 := by
  induction s with
  | nil => rfl
  | cons c rest ih =>
    rw [bal_cons, h c (List.mem_cons_self c rest),
      ih fun d hd => h d (List.mem_cons_of_mem c hd)]
    ring

theorem balanced_of_brkFree (s : LStr) (h : ∀ c ∈ s, brk c = 0) :
    balancedStr s := by
  refine ⟨bal_of_brkFree s h, fun n => ?_⟩
  rw [bal_of_brkFree (s.take n) fun c hc => h c (List.take_subset n s hc)]

theorem balanced_cons (c : Char) (l : LStr) (hc : brk c = 0)
    (hl : balancedStr l) : balancedStr (c :: l) := by
  refine ⟨by rw [bal_cons, hc, hl.1]; ring, fun n => ?_⟩
  match n with
  | 0 => simp [bal]
  | Nat.succ m =>
    rw [List.take_succ_cons, bal_cons, hc]
    simpa using hl.2 m

theorem applyRules_nil (rules : Rules) : applyRules rules [] = [] := rfl

theorem foldl_append_out (f : Char → LStr) :
    ∀ (t : LStr) (acc : LStr),
      t.foldl (fun acc d => acc ++ f d) acc =
        acc ++ t.foldl (fun acc d => acc ++ f d) [] := by
  intro t
  induction t with
  | nil => intro acc; simp
  | cons d t ih =>
    intro acc
    rw [List.foldl_cons, List.foldl_cons, ih (acc ++ f d), ih ([] ++ f d)]
    simp

theorem applyRules_cons (rules : Rules) (c : Char) (s : LStr) :
    applyRules rules (c :: s) = applyRulesChar rules c ++ applyRules rules s := by
  unfold applyRules
  rw [List.foldl_cons,
    foldl_append_out (applyRulesChar rules) s ([] ++ applyRulesChar rules c)]
  simp

theorem mem_of_lookup_eq_some {c : Char} {r : LStr} :
    ∀ {rules : Rules}, rules.lookup c = some r → (c, r) ∈ rules := by
  intro rules
  induction rules with
  | nil => intro h; exact Option.noConfusion h
  | cons p rest ih =>
    intro h
    obtain ⟨k, v⟩ := p
    simp only [List.lookup] at h
    split at h
    · next hk =>
      have hk2 : c = k := by simpa using hk
      have hv : v = r := Option.some.inj h
      subst hv
      rw [← hk2]
      exact List.mem_cons_self _ _
    · exact List.mem_cons_of_mem _ (ih h)

theorem brk_eq_zero_of_rule (rules : Rules) (c : Char) (r : LStr)
    (hlb : rules.lookup '[' = none) (hrb : rules.lookup ']' = none)
    (h : rules.lookup c = some r) : brk c = 0 := by
  have h1 : c ≠ '[' := by rintro rfl; rw [hlb] at h; exact Option.noConfusion h
  have h2 : c ≠ ']' := by rintro rfl; rw [hrb] at h; exact Option.noConfusion h
  simp [brk, h1, h2]

theorem bal_applyRulesChar (rules : Rules) (c : Char)
    (hlb : rules.lookup '[' = none) (hrb : rules.lookup ']' = none)
    (hr : ∀ p ∈ rules, bal p.2 = 0) :
    bal (applyRulesChar rules c) = brk c := by
  unfold applyRulesChar
  cases h : rules.lookup c with
  | none => simp [bal_cons, bal]
  | some r =>
    have hmem : (c, r) ∈ rules := mem_of_lookup_eq_some h
    rw [hr (c, r) hmem, brk_eq_zero_of_rule rules c r hlb hrb h]

theorem bal_applyRules (rules : Rules) (s : LStr)
    (hlb : rules.lookup '[' = none) (hrb : rules.lookup ']' = none)
    (hr : ∀ p ∈ rules, bal p.2 = 0) :
    bal (applyRules rules s) = bal s := by
  induction s with
  | nil => rfl
  | cons c rest ih =>
    rw [applyRules_cons, bal_append, bal_cons, ih,
      bal_applyRulesChar rules c hlb hrb hr]

theorem applyRulesChar_take_bound (rules : Rules) (c : Char)
    (hr : ∀ p ∈ rules, balancedStr p.2) (a : ℤ) (ha0 : 0 ≤ a)
    (hac : 0 ≤ a + brk c) :
    ∀ m, 0 ≤ a + bal ((applyRulesChar rules c).take m) := by
  intro m
  unfold applyRulesChar
  cases h : rules.lookup c with
  | none =>
    match m with
    | 0 => simpa [bal] using ha0
    | Nat.succ k =>
      rw [List.take_succ_cons, List.take_nil, bal_cons, bal_nil]
      omega
  | some r =>
    have hbr : balancedStr r := hr (c, r) (mem_of_lookup_eq_some h)
    have hm := hbr.2 m
    show 0 ≤ a + bal (r.take m)
    omega

theorem nonneg_applyRules (rules : Rules)
    (hlb : rules.lookup '[' = none) (hrb : rules.lookup ']' = none)
    (hr : ∀ p ∈ rules, balancedStr p.2) :
    ∀ (s : LStr) (a : ℤ), (∀ n, 0 ≤ a + bal (s.take n)) →
      ∀ n, 0 ≤ a + bal ((applyRules rules s).take n) := by
  intro s
  induction s with
  | nil =>
    intro a ha n
    simpa [applyRules_nil, bal] using ha 0
  | cons c rest ih =>
    intro a ha n
    have ha0 : 0 ≤ a := by simpa [bal] using ha 0
    have hac : 0 ≤ a + brk c := by simpa [bal_cons, bal] using ha 1
    have harest : ∀ m, 0 ≤ (a + brk c) + bal (rest.take m) := by
      intro m
      have := ha (m + 1)
      simpa [bal_cons, add_assoc] using this
    rw [applyRules_cons, List.take_append_eq_append_take, bal_append]
    rcases le_or_lt n (applyRulesChar rules c).length with hle | hlt
    · have hz : (applyRules rules rest).take (n - (applyRulesChar rules c).length) = [] := by
        rw [Nat.sub_eq_zero_of_le hle, List.take_zero]
      rw [hz, bal_nil]
      have := applyRulesChar_take_bound rules c hr a ha0 hac n
      omega
    · rw [List.take_of_length_le hlt.le,
        bal_applyRulesChar rules c hlb hrb (fun p hp => (hr p hp).1)]
      have := ih (a + brk c) harest (n - (applyRulesChar rules c).length)
      omega

theorem balanced_applyRules (rules : Rules) (s : LStr)
    (hlb : rules.lookup '[' = none) (hrb : rules.lookup ']' = none)
    (hr : ∀ p ∈ rules, balancedStr p.2) (hs : balancedStr s) :
    balancedStr (applyRules rules s) := by
  constructor
  · rw [bal_applyRules rules s hlb hrb (fun p hp => (hr p hp).1), hs.1]
  · intro n
    have := nonneg_applyRules rules hlb hrb hr s 0 (fun m => by simpa using hs.2 m) n
    simpa using this

theorem dropLastBracket_eq_take (s : LStr) :
    ∃ m, dropLastBracket s = s.take m := by
  induction s with
  | nil => exact ⟨0, rfl⟩
  | cons c rest ih =>
    by_cases h : '[' ∈ rest
    · obtain ⟨m, hm⟩ := ih
      refine ⟨m + 1, ?_⟩
      rw [dropLastBracket, if_pos h, hm, List.take_succ_cons]
    · by_cases hc : c = '['
      · exact ⟨0, by rw [dropLastBracket, if_neg h, if_pos hc, List.take_zero]⟩
      · refine ⟨(c :: rest).length, ?_⟩
        rw [dropLastBracket, if_neg h, if_neg hc, List.take_length]

theorem dropLastBracket_length_lt (s : LStr) (h : '[' ∈ s) :
    (dropLastBracket s).length < s.length := by
  induction s with
  | nil => exact absurd h (List.not_mem_nil _)
  | cons c rest ih =>
    by_cases hr : '[' ∈ rest
    · rw [dropLastBracket, if_pos hr]
      simpa using ih hr
    · have hc : c = '[' := by
        rcases List.mem_cons.mp h with h1 | h1
        · exact h1.symm
        · exact absurd h1 hr
      rw [dropLastBracket, if_neg hr, if_pos hc]
      simp

theorem stripLoop_balanced : ∀ (fuel : ℕ) (s : LStr), s.length ≤ fuel →
    nonneg s → balancedStr (stripLoop fuel s) := by
  intro fuel
  induction fuel with
  | zero =>
    intro s hlen hnn
    have : s = [] := List.length_eq_zero.mp (Nat.le_zero.mp hlen)
    subst this
    exact balanced_nil
  | succ f ih =>
    intro s hlen hnn
    rw [stripLoop]
    split
    · next hcond =>
      obtain ⟨m, hm⟩ := dropLastBracket_eq_take s
      have hlt := dropLastBracket_length_lt s hcond.1
      exact ih (dropLastBracket s) (by omega) (hm ▸ nonneg_take s m hnn)
    · next hcond =>
      have hbal0 : 0 ≤ bal s := by
        have := hnn s.length
        rwa [List.take_length] at this
      have hcounts := bal_eq_counts s
      rw [Classical.not_and_iff_or_not_not] at hcond
      have hc2 : (0 : ℤ) ≤ (s.count '[' : ℤ) - s.count ']' := by
        rw [← hcounts]; exact hbal0
      rcases hcond with h1 | h2
      · have hc : s.count '[' = 0 := List.count_eq_zero.mpr h1
        refine ⟨?_, hnn⟩
        rw [hcounts]
        omega
      · have hle : s.count '[' ≤ s.count ']' := not_lt.mp h2
        refine ⟨?_, hnn⟩
        rw [hcounts]
        omega

theorem stripUnbalanced_balanced (s : LStr) (h : nonneg s) :
    balancedStr (stripUnbalanced s) :=
  stripLoop_balanced s.length s le_rfl h

theorem generateLoop_balanced (rules : Rules)
    (hlb : rules.lookup '[' = none) (hrb : rules.lookup ']' = none)
    (hr : ∀ p ∈ rules, balancedStr p.2) :
    ∀ (iterations : ℕ) (current : LStr), balancedStr current →
      balancedStr (generateLoop rules current iterations) := by
  intro iterations
  induction iterations with
  | zero => intro current h; exact h
  | succ n ih =>
    intro current h
    rw [generateLoop]
    have hnext : balancedStr (applyRules rules current) :=
      balanced_applyRules rules current hlb hrb hr h
    split
    · exact stripUnbalanced_balanced _ (nonneg_take _ 80000 hnext.2)
    · exact ih (applyRules rules current) hnext

theorem balanced_fffFix : balancedStr fffFix :=
  (balanced_iff_balancedB fffFix).mpr (by decide)

theorem replaceFFF_balanced (s : LStr) (n : ℕ) :
    (∀ c ∈ s, brk c = 0) → balancedStr (replaceFFF s n) := by
  induction s, n using replaceFFF.induct with
  | case1 s =>
    intro h
    rw [replaceFFF]
    exact balanced_of_brkFree s h
  | case2 rest n ih =>
    intro h
    rw [replaceFFF]
    refine balanced_append _ _ balanced_fffFix (ih ?_)
    intro c hc
    exact h c (by simp [hc])
  | case3 n => intro h; rw [replaceFFF]; exact balanced_nil
  | case4 c rest n hne ih =>
    intro h
    have heq : replaceFFF (c :: rest) (n + 1) = c :: replaceFFF rest (n + 1) := by
      rw [replaceFFF]
      exact hne
    rw [heq]
    exact balanced_cons c _ (h c (List.mem_cons_self c rest))
      (ih fun d hd => h d (List.mem_cons_of_mem c hd))

theorem balanced_branchPattern7 (i : Fin 7) : balancedStr (branchPattern7 i) :=
  (balanced_iff_balancedB _).mpr (by revert i; decide)

theorem balanced_branchPattern4 (i : Fin 4) : balancedStr (branchPattern4 i) :=
  (balanced_iff_balancedB _).mpr (by revert i; decide)

theorem acLoop_bal (rng : GenRng) : ∀ (s : LStr) (decIdx added : ℕ),
    bal (acLoop rng s decIdx added).1 = bal s := by
  intro s
  induction s with
  | nil => intro decIdx added; rfl
  | cons c rest ih =>
    intro decIdx added
    rw [acLoop]
    split
    · split
      · simp only [bal_cons, bal_append]
        rw [(balanced_branchPattern7 _).1, ih]
        ring
      · simp only [bal_cons]
        rw [ih]
    · simp only [bal_cons]
      rw [ih]

theorem acLoop_nonneg (rng : GenRng) : ∀ (s : LStr) (decIdx added : ℕ) (a : ℤ),
    (∀ n, 0 ≤ a + bal (s.take n)) →
    ∀ n, 0 ≤ a + bal ((acLoop rng s decIdx added).1.take n) := by
  intro s
  induction s with
  | nil => intro decIdx added a ha n; simpa [acLoop, bal] using ha 0
  | cons c rest ih =>
    intro decIdx added a ha n
    have ha0 : 0 ≤ a := by simpa [bal] using ha 0
    have hac : 0 ≤ a + brk c := by simpa [bal_cons, bal] using ha 1
    have harest : ∀ m, 0 ≤ (a + brk c) + bal (rest.take m) := by
      intro m
      have := ha (m + 1)
      simpa [bal_cons, add_assoc] using this
    rw [acLoop]
    split
    · split
      · -- branch pattern inserted after the copied character
        match n with
        | 0 => simpa [bal] using ha0
        | Nat.succ m =>
          rw [List.take_succ_cons, bal_cons, List.take_append_eq_append_take,
            bal_append]
          set pat := branchPattern7 (rng.choice7 added) with hpat
          have hp1 : 0 ≤ bal (pat.take m) := (balanced_branchPattern7 _).2 m
          rcases le_or_lt m pat.length with hle | hlt
          · have hz : (acLoop rng rest (decIdx + 1) (added + 1)).1.take (m - pat.length) = [] := by
              rw [Nat.sub_eq_zero_of_le hle, List.take_zero]
            rw [hz, bal_nil]
            omega
          · rw [List.take_of_length_le hlt.le, (balanced_branchPattern7 _).1]
            have := ih (decIdx + 1) (added + 1) (a + brk c) harest (m - pat.length)
            omega
      · match n with
        | 0 => simpa [bal] using ha0
        | Nat.succ m =>
          rw [List.take_succ_cons, bal_cons]
          have := ih (decIdx + 1) added (a + brk c) harest m
          omega
    · match n with
      | 0 => simpa [bal] using ha0
      | Nat.succ m =>
        rw [List.take_succ_cons, bal_cons]
        have := ih decIdx added (a + brk c) harest m
        omega

theorem addComplexity_balanced (rng : GenRng) (s : LStr) (hs : balancedStr s) :
    balancedStr (addComplexity rng s) := by
  have hloop : balancedStr (acLoop rng s 0 0).1 := by
    constructor
    · rw [acLoop_bal rng s 0 0, hs.1]
    · intro n
      have := acLoop_nonneg rng s 0 0 0 (fun m => by simpa using hs.2 m) n
      simpa using this
  simp only [addComplexity]
  split
  · split
    · exact balanced_insert _ _ _ hloop (balanced_branchPattern4 _)
    · exact hloop
  · exact hloop

/-- Main balance-preservation result for `LSystem.generate`: if the axiom is
bracket-balanced, every rule replacement is bracket-balanced, and the bracket
characters themselves are not rewritten, then the generated instruction
string is bracket-balanced. -/
theorem lsGenerate_balanced (rules : Rules) (axiomStr : LStr) (iterations : ℕ)
    (rng : GenRng)
    (hlb : rules.lookup '[' = none) (hrb : rules.lookup ']' = none)
    (hr : ∀ p ∈ rules, balancedStr p.2) (hax : balancedStr axiomStr) :
    balancedStr (lsGenerate rules axiomStr iterations rng) := by
  have hcur : balancedStr (generateLoop rules axiomStr iterations) :=
    generateLoop_balanced rules hlb hrb hr iterations axiomStr hax
  simp only [lsGenerate]
  split
  · split
    · next hcond =>
      refine replaceFFF_balanced _ 2 ?_
      intro c hc
      have hcb : c ≠ '[' := fun h => hcond.1 (h ▸ hc)
      have hrbr : c ≠ ']' := by
        intro h
        subst h
        have h0 : (generateLoop rules axiomStr iterations).count '[' = 0 :=
          List.count_eq_zero.mpr hcond.1
        have hcounts := bal_eq_counts (generateLoop rules axiomStr iterations)
        have hb := hcur.1
        have h1 : (generateLoop rules axiomStr iterations).count ']' = 0 := by
          rw [hb, h0] at hcounts
          omega
        exact List.count_eq_zero.mp h1 hc
      simp [brk, hcb, hrbr]
    · exact addComplexity_balanced rng _ hcur
  · exact hcur

/-! ### Geometry layer: `LSystem.get_vertices` and its helpers, over exact reals -/

/-- A 3-component numpy float array, modelled over the exact reals. -/
structure V3 where
  x : ℝ
  y : ℝ
  z : ℝ

noncomputable instance : Add V3 := ⟨fun u v => ⟨u.x + v.x, u.y + v.y, u.z + v.z⟩⟩

noncomputable instance : Sub V3 := ⟨fun u v => ⟨u.x - v.x, u.y - v.y, u.z - v.z⟩⟩

noncomputable instance : SMul ℝ V3 := ⟨fun a v => ⟨a * v.x, a * v.y, a * v.z⟩⟩

/-- Squared Euclidean norm. -/
noncomputable def normSq (v : V3) : ℝ := v.x ^ 2 + v.y ^ 2 + v.z ^ 2

/-- `np.linalg.norm`. -/
noncomputable def vnorm (v : V3) : ℝ := Real.sqrt (normSq v)

/-- `np.cross`. -/
noncomputable def cross (u v : V3) : V3 :=
  ⟨u.y * v.z - u.z * v.y, u.z * v.x - u.x * v.z, u.x * v.y - u.y * v.x⟩

/-- `LSystem._rotate_x`: rotation of a vector about the X axis. -/
noncomputable def rotateX (v : V3) (angle : ℝ) : V3 :=
  ⟨v.x,
   v.y * Real.cos angle - v.z * Real.sin angle,
   v.y * Real.sin angle + v.z * Real.cos angle⟩

/-- `LSystem._rotate_y`: rotation of a vector about the Y axis. -/
noncomputable def rotateY (v : V3) (angle : ℝ) : V3 :=
  ⟨v.x * Real.cos angle + v.z * Real.sin angle,
   v.y,
   -(v.x * Real.sin angle) + v.z * Real.cos angle⟩

/-- `LSystem._rotate_z`: rotation of a vector about the Z axis. -/
noncomputable def rotateZ (v : V3) (angle : ℝ) : V3 :=
  ⟨v.x * Real.cos angle - v.y * Real.sin angle,
   v.x * Real.sin angle + v.y * Real.cos angle,
   v.z⟩

/-- Componentwise `np.clip(v, 0.0, 1.0)`. -/
noncomputable def clip01 (v : V3) : V3 :=
  ⟨min (max v.x 0) 1, min (max v.y 0) 1, min (max v.z 0) 1⟩

/-- The `1e-9` guard added to the norm before normalizing in
`_compute_normal`. -/
noncomputable def eps9 : ℝ := 1 / 1000000000

/-- The `1e-6` degeneracy threshold of `_compute_normal`. -/
noncomputable def eps6 : ℝ := 1 / 1000000

/-- The grammar/appearance fields carried by an `LSystem` instance after
`__init__` has run (jitter and leaf color already sampled). -/
structure LSystemR where
  axiomStr : LStr
  rules : Rules
  angle : ℝ
  scale : ℝ
  initialLength : ℝ
  initialWidth : ℝ
  widthReductionFactor : ℝ
  trunkColor : V3
  leafColor : V3

/-- `LSystem._compute_segment_color`. -/
noncomputable def computeSegmentColor (ls : LSystemR) (depth maxDepth : ℕ)
    (width : ℝ) : V3 :=
  let clampedDepth := min depth maxDepth
  let depthFactor : ℝ := if 0 < maxDepth then (clampedDepth : ℝ) / (maxDepth : ℝ) else 0
  let widthFactor : ℝ := if 0 < ls.initialWidth then width / ls.initialWidth else 0
  let widthColorShift : V3 := (1 - widthFactor) • (⟨1/10, 1/10, -(1/20)⟩ : V3)
  let targetColor := ls.trunkColor + (3/10 : ℝ) • (ls.leafColor - ls.trunkColor)
  let baseColor := (1 - depthFactor) • ls.trunkColor + depthFactor • targetColor
  clip01 (baseColor + widthColorShift)

/-- `LSystem._compute_leaf_transition_color`. -/
noncomputable def computeLeafTransitionColor (ls : LSystemR) (depth maxDepth : ℕ)
    (width : ℝ) : V3 :=
  let branchColor := computeSegmentColor ls depth maxDepth width
  let transitionFactor : ℝ := 3/5
  clip01 ((1 - transitionFactor) • branchColor + transitionFactor • ls.leafColor)

/-- `LSystem._compute_normal`: normal perpendicular to a branch direction,
with the three-tier fallback for directions parallel to the world axes. -/
noncomputable def computeNormal (direction : V3) : V3 :=
  let d := (vnorm direction + eps9)⁻¹ • direction
  let up : V3 := ⟨0, 1, 0⟩
  let crossUp := cross d up
  let normUp := vnorm crossUp
  if eps6 < normUp then normUp⁻¹ • crossUp
  else
    let right : V3 := ⟨1, 0, 0⟩
    let crossRight := cross d right
    let normRight := vnorm crossRight
    if eps6 < normRight then normRight⁻¹ • crossRight
    else ⟨0, 0, 1⟩

/-- RNG draws consumed by `get_vertices`: per-deviation angle and axis picks
(for long straight runs of `F`) and the two per-leaf angle draws. -/
structure TurtleRng where
  devAngle : ℕ → ℝ
  devAxis : ℕ → ℕ
  leafAngleX : ℕ → ℝ
  leafAngleY : ℕ → ℝ

/-- The turtle state maintained by `get_vertices`, plus counters indexing the
next RNG draw of each stream. -/
structure Turtle where
  position : V3
  direction : V3
  curLength : ℝ
  curWidth : ℝ
  branchDepth : ℕ
  stack : List (V3 × V3 × ℝ × ℝ × ℕ)
  segCount : ℕ
  kDev : ℕ
  kLeaf : ℕ

/-- The three output buffers (each entry is one 3-float triple). -/
structure TOut where
  verts : List V3
  cols : List V3
  norms : List V3

def emptyOut : TOut := ⟨[], [], []⟩

def outAppend (a b : TOut) : TOut :=
  ⟨a.verts ++ b.verts, a.cols ++ b.cols, a.norms ++ b.norms⟩

/-- The `max_render_depth` constant of `get_vertices`. -/
def maxRenderDepth : ℕ := 15

/-- The state reset applied when `]` is met with an empty stack. -/
noncomputable def resetTurtle (ls : LSystemR) (st : Turtle) : Turtle :=
  { st with
    position := ⟨0, -(1/2), 0⟩
    direction := ⟨0, 1, 0⟩
    curLength := ls.initialLength
    curWidth := ls.initialWidth
    branchDepth := 0
    segCount := 0 }

/-- The `F` case of `get_vertices`: optional small random deviation after
long straight runs, then draw a segment along the heading. -/
noncomputable def stepF (ls : LSystemR) (rng : TurtleRng) (st : Turtle) :
    Turtle × TOut :=
  let dev := 2 < st.segCount
  let d1 :=
    if dev then
      if rng.devAxis st.kDev = 0 then rotateX st.direction (rng.devAngle st.kDev)
      else if rng.devAxis st.kDev = 1 then rotateY st.direction (rng.devAngle st.kDev)
      else rotateZ st.direction (rng.devAngle st.kDev)
    else st.direction
  let k1 := if dev then st.kDev + 1 else st.kDev
  let endP := st.position + st.curLength • d1
  let col := computeSegmentColor ls st.branchDepth maxRenderDepth st.curWidth
  let nrm := computeNormal d1
  ({ st with
     position := endP
     direction := d1
     segCount := st.segCount + 1
     kDev := k1 },
   ⟨[st.position, endP], [col, col], [nrm, nrm]⟩)

/-- A rotation case of `get_vertices`: replace the heading, reset the
straight-run counter, emit nothing. -/
noncomputable def stepRot (st : Turtle) (d : V3) : Turtle × TOut :=
  ({ st with direction := d, segCount := 0 }, emptyOut)

/-- The `[` case: push the five-component state, shrink length and width,
deepen. -/
noncomputable def stepPush (ls : LSystemR) (st : Turtle) : Turtle × TOut :=
  ({ st with
     stack := (st.position, st.direction, st.curLength, st.curWidth,
       st.branchDepth) :: st.stack
     curLength := st.curLength * ls.scale
     curWidth := st.curWidth * ls.widthReductionFactor
     branchDepth := st.branchDepth + 1
     segCount := 0 }, emptyOut)

/-- The `]` case: pop, or — on an empty stack — log a warning and reset to
safe defaults instead of raising. -/
noncomputable def stepPop (ls : LSystemR) (st : Turtle) : Turtle × TOut :=
  match st.stack with
  | f :: rest =>
    ({ st with
       position := f.1
       direction := f.2.1
       curLength := f.2.2.1
       curWidth := f.2.2.2.1
       branchDepth := f.2.2.2.2
       stack := rest
       segCount := 0 }, emptyOut)
  | [] => (resetTurtle ls st, emptyOut)

/-- The `X` case: a short leaf segment along a randomly perturbed copy of the
heading; the heading and position themselves are unchanged. -/
noncomputable def stepLeaf (ls : LSystemR) (rng : TurtleRng) (st : Turtle) :
    Turtle × TOut :=
  let leafDir := rotateY (rotateX st.direction (rng.leafAngleX st.kLeaf))
    (rng.leafAngleY st.kLeaf)
  let leafSize := max (st.curLength * (1/2)) (ls.initialLength * (1/20))
  let endP := st.position + leafSize • leafDir
  let tcol := computeLeafTransitionColor ls st.branchDepth maxRenderDepth st.curWidth
  let nrm := computeNormal leafDir
  ({ st with kLeaf := st.kLeaf + 1 },
   ⟨[st.position, endP], [tcol, ls.leafColor], [nrm, nrm]⟩)

/-- One step of the interpretation loop of `get_vertices`, dispatching on the
current character exactly as the Python `if`/`elif` chain does. -/
noncomputable def stepChar (ls : LSystemR) (rng : TurtleRng) (st : Turtle)
    (c : Char) : Turtle × TOut :=
  if c = 'F' then stepF ls rng st
  else if c = '+' then stepRot st (rotateY st.direction ls.angle)
  else if c = '-' then stepRot st (rotateY st.direction (-ls.angle))
  else if c = '&' then stepRot st (rotateX st.direction ls.angle)
  else if c = '^' then stepRot st (rotateX st.direction (-ls.angle))
  else if c = '\\' then stepRot st (rotateZ st.direction ls.angle)
  else if c = '/' then stepRot st (rotateZ st.direction (-ls.angle))
  else if c = '[' then stepPush ls st
  else if c = ']' then stepPop ls st
  else if c = 'X' then stepLeaf ls rng st
  else (st, emptyOut)

/-- The interpretation loop: run the string left to right, concatenating the
emitted buffers; also returns the final turtle state. -/
noncomputable def runT (ls : LSystemR) (rng : TurtleRng) :
    Turtle → LStr → TOut × Turtle
  | st, [] => (emptyOut, st)
  | st, c :: rest =>
    let p := stepChar ls rng st c
    let q := runT ls rng p.1 rest
    (outAppend p.2 q.1, q.2)

/-- The initial turtle state of `get_vertices`: origin, heading up, initial
length and width, empty stack. -/
noncomputable def initTurtle (ls : LSystemR) : Turtle :=
  { position := ⟨0, 0, 0⟩
    direction := ⟨0, 1, 0⟩
    curLength := ls.initialLength
    curWidth := ls.initialWidth
    branchDepth := 0
    stack := []
    segCount := 0
    kDev := 0
    kLeaf := 0 }

/-- `LSystem.get_vertices` applied to an instruction string: the three
emitted buffers. -/
noncomputable def getVertices (ls : LSystemR) (rng : TurtleRng) (s : LStr) : TOut :=
  (runT ls rng (initTurtle ls) s).1

/-! ### Geometry lemmas -/

theorem normSq_rotateX (v : V3) (a : ℝ) : normSq (rotateX v a) = normSq v := by
  simp only [normSq, rotateX]
  linear_combination (v.y ^ 2 + v.z ^ 2) * Real.sin_sq_add_cos_sq a

theorem normSq_rotateY (v : V3) (a : ℝ) : normSq (rotateY v a) = normSq v := by
  simp only [normSq, rotateY]
  linear_combination (v.x ^ 2 + v.z ^ 2) * Real.sin_sq_add_cos_sq a

theorem normSq_rotateZ (v : V3) (a : ℝ) : normSq (rotateZ v a) = normSq v := by
  simp only [normSq, rotateZ]
  linear_combination (v.x ^ 2 + v.y ^ 2) * Real.sin_sq_add_cos_sq a

theorem normSq_nonneg (v : V3) : 0 ≤ normSq v := by
  simp only [normSq]
  positivity

theorem normSq_smul (a : ℝ) (v : V3) : normSq (a • v) = a ^ 2 * normSq v := by
  show normSq ⟨a * v.x, a * v.y, a * v.z⟩ = a ^ 2 * normSq v
  simp only [normSq]
  ring

theorem normSq_unit_of_normalized (v : V3) (h : 0 < vnorm v) :
    normSq ((vnorm v)⁻¹ • v) = 1 := by
  rw [normSq_smul]
  have hsq : vnorm v ^ 2 = normSq v := Real.sq_sqrt (normSq_nonneg v)
  have hne : vnorm v ≠ 0 := ne_of_gt h
  field_simp
  linarith [hsq]

theorem eps6_pos : (0 : ℝ) < eps6 := by
  rw [eps6]; norm_num

theorem computeNormal_normSq (v : V3) : normSq (computeNormal v) = 1 := by
  rw [computeNormal]
  split
  · next h => exact normSq_unit_of_normalized _ (lt_trans eps6_pos h)
  · dsimp only
    split
    · next h => exact normSq_unit_of_normalized _ (lt_trans eps6_pos h)
    · show normSq ⟨0, 0, 1⟩ = 1
      simp [normSq]

/-- `0 ≤ c ≤ 1` componentwise: the color is inside the unit cube. -/
def inUnit01 (v : V3) : Prop :=
  0 ≤ v.x ∧ v.x ≤ 1 ∧ 0 ≤ v.y ∧ v.y ≤ 1 ∧ 0 ≤ v.z ∧ v.z ≤ 1

theorem clip01_inUnit01 (v : V3) : inUnit01 (clip01 v) := by
  refine ⟨?_, ?_, ?_, ?_, ?_, ?_⟩ <;>
    simp [clip01, le_min_iff, le_max_iff, min_le_iff]

theorem computeSegmentColor_inUnit01 (ls : LSystemR) (depth maxDepth : ℕ)
    (width : ℝ) : inUnit01 (computeSegmentColor ls depth maxDepth width) :=
  clip01_inUnit01 _

theorem computeLeafTransitionColor_inUnit01 (ls : LSystemR) (depth maxDepth : ℕ)
    (width : ℝ) : inUnit01 (computeLeafTransitionColor ls depth maxDepth width) :=
  clip01_inUnit01 _

theorem stepPop_out (ls : LSystemR) (st : Turtle) : (stepPop ls st).2 = emptyOut := by
  rw [stepPop]
  split <;> rfl

set_option maxHeartbeats 1000000 in
theorem stepChar_out (ls : LSystemR) (rng : TurtleRng) (st : Turtle) (c : Char) :
    (stepChar ls rng st c).2 = (stepF ls rng st).2 ∨
    (stepChar ls rng st c).2 = (stepLeaf ls rng st).2 ∨
    (stepChar ls rng st c).2 = emptyOut := by
  rw [stepChar]
  split_ifs
  · left; rfl
  · right; right; rfl
  · right; right; rfl
  · right; right; rfl
  · right; right; rfl
  · right; right; rfl
  · right; right; rfl
  · right; right; rfl
  · right; right; exact stepPop_out ls st
  · right; left; rfl
  · right; right; rfl

theorem stepChar_cols_inUnit01 (ls : LSystemR) (rng : TurtleRng) (st : Turtle)
    (c : Char) (hleaf : inUnit01 ls.leafColor) :
    ∀ x ∈ (stepChar ls rng st c).2.cols, inUnit01 x := by
  intro x hx
  rcases stepChar_out ls rng st c with h | h | h <;> rw [h] at hx
  · simp only [stepF, List.mem_cons, List.not_mem_nil, or_false] at hx
    rcases hx with rfl | rfl <;> exact computeSegmentColor_inUnit01 ls _ _ _
  · simp only [stepLeaf, List.mem_cons, List.not_mem_nil, or_false] at hx
    rcases hx with rfl | rfl
    · exact computeLeafTransitionColor_inUnit01 ls _ _ _
    · exact hleaf
  · simp [emptyOut] at hx

theorem stepChar_norms_unit (ls : LSystemR) (rng : TurtleRng) (st : Turtle)
    (c : Char) : ∀ x ∈ (stepChar ls rng st c).2.norms, normSq x = 1 := by
  intro x hx
  rcases stepChar_out ls rng st c with h | h | h <;> rw [h] at hx
  · simp only [stepF, List.mem_cons, List.not_mem_nil, or_false] at hx
    rcases hx with rfl | rfl <;> exact computeNormal_normSq _
  · simp only [stepLeaf, List.mem_cons, List.not_mem_nil, or_false] at hx
    rcases hx with rfl | rfl <;> exact computeNormal_normSq _
  · simp [emptyOut] at hx

theorem runT_cols_inUnit01 (ls : LSystemR) (rng : TurtleRng)
    (hleaf : inUnit01 ls.leafColor) :
    ∀ (s : LStr) (st : Turtle), ∀ x ∈ (runT ls rng st s).1.cols, inUnit01 x := by
  intro s
  induction s with
  | nil => intro st x hx; simp [runT, emptyOut] at hx
  | cons c rest ih =>
    intro st x hx
    rw [runT] at hx
    simp only [outAppend, List.mem_append] at hx
    rcases hx with hx | hx
    · exact stepChar_cols_inUnit01 ls rng st c hleaf x hx
    · exact ih _ x hx

theorem runT_norms_unit (ls : LSystemR) (rng : TurtleRng) :
    ∀ (s : LStr) (st : Turtle), ∀ x ∈ (runT ls rng st s).1.norms, normSq x = 1 := by
  intro s
  induction s with
  | nil => intro st x hx; simp [runT, emptyOut] at hx
  | cons c rest ih =>
    intro st x hx
    rw [runT] at hx
    simp only [outAppend, List.mem_append] at hx
    rcases hx with hx | hx
    · exact stepChar_norms_unit ls rng st c x hx
    · exact ih _ x hx

/-- Invariant: the heading and every saved heading on the stack are unit
vectors (in squared-norm form). -/
def dirInv (st : Turtle) : Prop :=
  normSq st.direction = 1 ∧ ∀ f ∈ st.stack, normSq f.2.1 = 1

theorem stepF_dirInv (ls : LSystemR) (rng : TurtleRng) (st : Turtle)
    (h : dirInv st) : dirInv (stepF ls rng st).1 := by
  refine ⟨?_, h.2⟩
  show normSq (if 2 < st.segCount then
      if rng.devAxis st.kDev = 0 then rotateX st.direction (rng.devAngle st.kDev)
      else if rng.devAxis st.kDev = 1 then rotateY st.direction (rng.devAngle st.kDev)
      else rotateZ st.direction (rng.devAngle st.kDev)
    else st.direction) = 1
  split_ifs <;>
    simp only [normSq_rotateX, normSq_rotateY, normSq_rotateZ, h.1]

set_option maxHeartbeats 1000000 in
theorem stepChar_dirInv (ls : LSystemR) (rng : TurtleRng) (st : Turtle)
    (c : Char) (h : dirInv st) : dirInv (stepChar ls rng st c).1 := by
  rw [stepChar]
  split_ifs
  · exact stepF_dirInv ls rng st h
  · exact ⟨by rw [stepRot]; exact (normSq_rotateY _ _).trans h.1, h.2⟩
  · exact ⟨by rw [stepRot]; exact (normSq_rotateY _ _).trans h.1, h.2⟩
  · exact ⟨by rw [stepRot]; exact (normSq_rotateX _ _).trans h.1, h.2⟩
  · exact ⟨by rw [stepRot]; exact (normSq_rotateX _ _).trans h.1, h.2⟩
  · exact ⟨by rw [stepRot]; exact (normSq_rotateZ _ _).trans h.1, h.2⟩
  · exact ⟨by rw [stepRot]; exact (normSq_rotateZ _ _).trans h.1, h.2⟩
  · refine ⟨h.1, ?_⟩
    intro f hf
    rw [stepPush] at hf
    simp only [List.mem_cons] at hf
    rcases hf with rfl | hf
    · exact h.1
    · exact h.2 f hf
  · rw [stepPop]
    split
    · next f rest heq =>
      refine ⟨h.2 f (heq ▸ List.mem_cons_self f rest), ?_⟩
      intro g hg
      exact h.2 g (heq ▸ List.mem_cons_of_mem f hg)
    · refine ⟨?_, h.2⟩
      show normSq ⟨0, 1, 0⟩ = 1
      simp [normSq]
  · exact ⟨h.1, h.2⟩
  · exact h

theorem runT_dirInv (ls : LSystemR) (rng : TurtleRng) :
    ∀ (s : LStr) (st : Turtle), dirInv st → dirInv ((runT ls rng st s).2) := by
  intro s
  induction s with
  | nil => intro st h; exact h
  | cons c rest ih =>
    intro st h
    rw [runT]
    exact ih _ (stepChar_dirInv ls rng st c h)

theorem initTurtle_dirInv (ls : LSystemR) : dirInv (initTurtle ls) := by
  refine ⟨?_, ?_⟩
  · show normSq ⟨0, 1, 0⟩ = 1
    simp [normSq]
  · intro f hf
    simp [initTurtle] at hf

/-! ### Forest placement: `ForestGenerator._generate_tree_positions` -/

/-- Planar (X,Z) distance `(dx**2 + dz**2)**0.5` used by
`ForestGenerator._is_valid_position`. -/
noncomputable def planarDistance (p q : ℝ × ℝ) : ℝ :=
  Real.sqrt ((p.1 - q.1) ^ 2 + (p.2 - q.2) ^ 2)

/-- `ForestGenerator._is_valid_position`: the candidate is no closer than
`min_distance` to every already accepted position. -/
def isValidPosition (minDistance : ℝ) (pos : ℝ × ℝ)
    (positions : List (ℝ × ℝ)) : Prop :=
  ∀ q ∈ positions, ¬ planarDistance pos q < minDistance

noncomputable instance (minDistance : ℝ) (pos : ℝ × ℝ)
    (positions : List (ℝ × ℝ)) :
    Decidable (isValidPosition minDistance pos positions) :=
  Classical.propDecidable _

/-- The inner `while not positioned and attempts < max_attempts` loop for one
tree: `rng k` models the `random.uniform` draw of the k-th candidate `(x, z)`;
returns the accepted position (if any) and the next draw index. -/
noncomputable def tryPlace (minDistance : ℝ) (rng : ℕ → ℝ × ℝ)
    (positions : List (ℝ × ℝ)) : ℕ → ℕ → Option (ℝ × ℝ) × ℕ
  | k, 0 => (none, k)
  | k, attemptsLeft + 1 =>
    if isValidPosition minDistance (rng k) positions then (some (rng k), k + 1)
    else tryPlace minDistance rng positions (k + 1) attemptsLeft

/-- The outer `for _ in range(count)` loop of
`_generate_tree_positions`: a tree that cannot be placed within the
`max_attempts = 50` budget is skipped and the loop continues. -/
noncomputable def placeLoop (minDistance : ℝ) (rng : ℕ → ℝ × ℝ) :
    ℕ → ℕ → List (ℝ × ℝ) → List (ℝ × ℝ)
  | 0, _, positions => positions
  | count + 1, k, positions =>
    match tryPlace minDistance rng positions k 50 with
    | (some p, k2) => placeLoop minDistance rng count k2 (positions ++ [p])
    | (none, k2) => placeLoop minDistance rng count k2 positions

/-- `ForestGenerator._generate_tree_positions`. -/
noncomputable def generateTreePositions (minDistance : ℝ) (rng : ℕ → ℝ × ℝ)
    (count : ℕ) : List (ℝ × ℝ) :=
  placeLoop minDistance rng count 0 []

theorem planarDistance_comm (p q : ℝ × ℝ) :
    planarDistance p q = planarDistance q p := by
  unfold planarDistance
  congr 1
  ring

theorem tryPlace_draws_le (minDistance : ℝ) (rng : ℕ → ℝ × ℝ)
    (positions : List (ℝ × ℝ)) :
    ∀ (attemptsLeft k : ℕ),
      (tryPlace minDistance rng positions k attemptsLeft).2 ≤ k + attemptsLeft := by
  intro attemptsLeft
  induction attemptsLeft with
  | zero => intro k; simp [tryPlace]
  | succ n ih =>
    intro k
    rw [tryPlace]
    split
    · simp
    · have := ih (k + 1)
      omega

theorem tryPlace_some_valid (minDistance : ℝ) (rng : ℕ → ℝ × ℝ)
    (positions : List (ℝ × ℝ)) :
    ∀ (attemptsLeft k : ℕ) (p : ℝ × ℝ) (k2 : ℕ),
      tryPlace minDistance rng positions k attemptsLeft = (some p, k2) →
      isValidPosition minDistance p positions := by
  intro attemptsLeft
  induction attemptsLeft with
  | zero => intro k p k2 h; exact absurd (congrArg Prod.fst h) (by simp [tryPlace])
  | succ n ih =>
    intro k p k2 h
    rw [tryPlace] at h
    split at h
    · next hv =>
      have hp : rng k = p := by
        have := congrArg Prod.fst h
        simpa using this
      exact hp ▸ hv
    · exact ih (k + 1) p k2 h

/-- All placed positions are pairwise at least `min_distance` apart. -/
def farApart (minDistance : ℝ) (l : List (ℝ × ℝ)) : Prop :=
  l.Pairwise (fun p q => minDistance ≤ planarDistance p q)

theorem placeLoop_farApart (minDistance : ℝ) (rng : ℕ → ℝ × ℝ) :
    ∀ (count k : ℕ) (positions : List (ℝ × ℝ)),
      farApart minDistance positions →
      farApart minDistance (placeLoop minDistance rng count k positions) := by
  intro count
  induction count with
  | zero => intro k positions h; exact h
  | succ n ih =>
    intro k positions h
    rw [placeLoop]
    split
    · rename_i p k2 heq
      refine ih k2 (positions ++ [p]) ?_
      rw [farApart, List.pairwise_append]
      refine ⟨h, List.pairwise_singleton _ _, ?_⟩
      intro a ha b hb
      have hb2 : b = p := List.mem_singleton.mp hb
      have hval := tryPlace_some_valid minDistance rng positions 50 k p k2 heq
      rw [hb2, planarDistance_comm]
      exact not_lt.mp (hval a ha)
    · rename_i k2 heq
      exact ih k2 positions h

theorem placeLoop_length (minDistance : ℝ) (rng : ℕ → ℝ × ℝ) :
    ∀ (count k : ℕ) (positions : List (ℝ × ℝ)),
      (placeLoop minDistance rng count k positions).length ≤
        positions.length + count := by
  intro count
  induction count with
  | zero => intro k positions; simp [placeLoop]
  | succ n ih =>
    intro k positions
    rw [placeLoop]
    split
    · rename_i p k2 heq
      have := ih k2 (positions ++ [p])
      simp only [List.length_append, List.length_singleton] at this
      omega
    · rename_i k2 heq
      have := ih k2 positions
      omega

/-! ### The constructor `LSystem.__init__` -/

/-- The `leaf_color` argument of `LSystem.__init__`: a 2-element list
(range), a tuple (fixed color), or anything else (fallback). -/
inductive LeafColorArg where
  | range : V3 → V3 → LeafColorArg
  | fixed : V3 → LeafColorArg
  | other : LeafColorArg

/-- RNG draws consumed by `__init__`: the angle jitter
(`random.uniform(-radians(1.5), radians(1.5))`), the scale jitter
(`random.uniform(0.98, 1.02)`), the three interpolation parameters of a
sampled range color, and the three deltas added to a fixed color. -/
structure InitRng where
  angleJitter : ℝ
  scaleJitter : ℝ
  leafT : V3
  leafDelta : V3

/-- The leaf-color handling of `__init__`: sample within the range, clamp a
jittered fixed color to [0,1], or fall back to the default green. -/
noncomputable def resolveLeafColor : LeafColorArg → InitRng → V3
  | .range lo hi, rng =>
    ⟨lo.x + rng.leafT.x * (hi.x - lo.x),
     lo.y + rng.leafT.y * (hi.y - lo.y),
     lo.z + rng.leafT.z * (hi.z - lo.z)⟩
  | .fixed c, rng =>
    ⟨max 0 (min 1 (c.x + rng.leafDelta.x)),
     max 0 (min 1 (c.y + rng.leafDelta.y)),
     max 0 (min 1 (c.z + rng.leafDelta.z))⟩
  | .other, _ => ⟨0, 4/5, 0⟩

/-- `LSystem.__init__`: stores all fields with jitter applied and computes the
width reduction factor `0.1 ** (1 / 9)`; performs no validation of any kind
and never raises. -/
noncomputable def lsInit (axiomStr : LStr) (rules : Rules)
    (angle scale initialLength initialWidth : ℝ) (trunkColor : V3)
    (leafColor : LeafColorArg) (rng : InitRng) : LSystemR :=
  { axiomStr := axiomStr
    rules := rules
    angle := angle + rng.angleJitter
    scale := scale * rng.scaleJitter
    initialLength := initialLength
    initialWidth := initialWidth
    widthReductionFactor :=
      if 0 < initialWidth then (1/10 : ℝ) ^ ((1 : ℝ) / 9) else 1
    trunkColor := trunkColor
    leafColor := resolveLeafColor leafColor rng }

/-! ### Concrete fixtures used by witnesses and counterexamples -/

/-- Deterministic `_add_complexity` RNG fixture. -/
def genRng0 : GenRng := ⟨fun _ => false, fun _ => 0, 0, 0⟩

/-- Deterministic interpreter RNG fixture (all draws zero). -/
noncomputable def turtleRng0 : TurtleRng :=
  ⟨fun _ => 0, fun _ => 0, fun _ => 0, fun _ => 0⟩

/-- A concrete `LSystem` instance with the default colors, zero angle. -/
noncomputable def lsDemo : LSystemR :=
  { axiomStr := ['F']
    rules := []
    angle := 0
    scale := 4/5
    initialLength := 1/10
    initialWidth := 1/20
    widthReductionFactor := 1
    trunkColor := ⟨11/20, 27/100, 7/100⟩
    leafColor := ⟨0, 4/5, 0⟩ }

/-- A turtle state whose heading is not a unit vector. -/
noncomputable def turtleNonUnit : Turtle :=
  { position := ⟨0, 0, 0⟩
    direction := ⟨0, 2, 0⟩
    curLength := 1
    curWidth := 1
    branchDepth := 0
    stack := []
    segCount := 0
    kDev := 0
    kLeaf := 0 }

/-- Constructor RNG fixture: no angle jitter, scale jitter exactly 1. -/
noncomputable def initRng1 : InitRng := ⟨0, 1, ⟨0, 0, 0⟩, ⟨0, 0, 0⟩⟩

/-- An adversarial instruction string: four consecutive `^` driving the
heading vertical-adjacent, a drawn segment, an unbalanced trailing `]`,
then more drawing. -/
def advStr : LStr := ['^', '^', '^', '^', 'F', ']', 'F', 'X']

/-- A balanced two-rule grammar used as the C2 witness. -/
def rulesW : Rules :=
  [('X', ['F', '[', '+', 'X', ']', '[', '-', 'X', ']']), ('F', ['F', 'F'])]

theorem stepChar_plus (ls : LSystemR) (rng : TurtleRng) (st : Turtle) :
    stepChar ls rng st '+' = stepRot st (rotateY st.direction ls.angle) := by
  rw [stepChar]
  simp

theorem stepChar_rbracket (ls : LSystemR) (rng : TurtleRng) (st : Turtle) :
    stepChar ls rng st ']' = stepPop ls st := by
  rw [stepChar]
  simp

theorem stepPop_of_empty (ls : LSystemR) (st : Turtle) (h : st.stack = []) :
    stepPop ls st = (resetTurtle ls st, emptyOut) := by
  simp only [stepPop, h]

theorem outAppend_emptyOut_left (b : TOut) : outAppend emptyOut b = b := by
  cases b
  simp [outAppend, emptyOut]

/-! ### Claim theorems -/

/-- Claim C1: for every instruction string interpreted by
`LSystem.get_vertices` — including adversarial strings with many consecutive
`^` commands and unbalanced trailing `]` — every color triple in the returned
buffers lies in [0,1]^3 and every normal triple is an exact unit vector
(hence finite; the embedding is over exact reals, where the clamps and the
guarded divisions of `_compute_normal` make every emitted value well defined).
The only unclamped color the interpreter ever emits is the stored leaf color,
so the hypothesis asks exactly that it lie in [0,1]^3. -/
theorem c1_buffers_safe (ls : LSystemR) (rng : TurtleRng) (s : LStr)
    (hleaf : inUnit01 ls.leafColor) :
    (∀ x ∈ (getVertices ls rng s).cols, inUnit01 x) ∧
    (∀ x ∈ (getVertices ls rng s).norms, normSq x = 1) :=
  ⟨fun x hx => runT_cols_inUnit01 ls rng hleaf s (initTurtle ls) x hx,
   fun x hx => runT_norms_unit ls rng s (initTurtle ls) x hx⟩

/-- Witness for C1 at a concrete adversarial string and leaf color. -/
theorem c1_buffers_safe_witness :
    inUnit01 lsDemo.leafColor ∧
    ((∀ x ∈ (getVertices lsDemo turtleRng0 advStr).cols, inUnit01 x) ∧
     (∀ x ∈ (getVertices lsDemo turtleRng0 advStr).norms, normSq x = 1)) :=
  ⟨by norm_num [lsDemo, inUnit01],
   c1_buffers_safe lsDemo turtleRng0 advStr (by norm_num [lsDemo, inUnit01])⟩

/-- Counterexample to C2 as stated: the claim quantifies over every grammar,
but `LSystem.generate` applied to the (unbalanced) axiom `"]"` with no rules
and zero generations returns `"]"`, whose bracket counts differ. -/
theorem c2_counterexample :
    (lsGenerate [] [']'] 0 genRng0).count '[' ≠
      (lsGenerate [] [']'] 0 genRng0).count ']' := by
  decide

/-- Claim C2 (amended): for every grammar whose axiom is bracket-balanced,
whose rule replacements are all bracket-balanced, and which has no rules for
`[` or `]`, the string returned by `LSystem.generate` — including after
truncation-repair and the too-simple corrective pass — has equally many `[`
and `]`, and the left-to-right running counter never goes negative. -/
theorem c2_balanced_for_balanced_grammars (rules : Rules) (axiomStr : LStr)
    (iterations : ℕ) (rng : GenRng)
    (hlb : rules.lookup '[' = none) (hrb : rules.lookup ']' = none)
    (hr : rules.all (fun p => balancedB p.2) = true)
    (hax : balancedB axiomStr = true) :
    (lsGenerate rules axiomStr iterations rng).count '[' =
      (lsGenerate rules axiomStr iterations rng).count ']' ∧
    ∀ n, 0 ≤ bal ((lsGenerate rules axiomStr iterations rng).take n) := by
  have hr2 : ∀ p ∈ rules, balancedStr p.2 := by
    intro p hp
    exact (balanced_iff_balancedB p.2).mpr (List.all_eq_true.mp hr p hp)
  have hbal := lsGenerate_balanced rules axiomStr iterations rng hlb hrb hr2
    ((balanced_iff_balancedB _).mpr hax)
  refine ⟨?_, hbal.2⟩
  have h0 := hbal.1
  rw [bal_eq_counts] at h0
  omega

/-- Witness for C2 at a concrete balanced branching grammar. -/
theorem c2_balanced_for_balanced_grammars_witness :
    (rulesW.lookup '[' = none ∧ rulesW.lookup ']' = none ∧
      rulesW.all (fun p => balancedB p.2) = true ∧ balancedB ['X'] = true) ∧
    ((lsGenerate rulesW ['X'] 2 genRng0).count '[' =
      (lsGenerate rulesW ['X'] 2 genRng0).count ']' ∧
     ∀ n, 0 ≤ bal ((lsGenerate rulesW ['X'] 2 genRng0).take n)) :=
  ⟨⟨by decide, by decide, by decide, by decide⟩,
   c2_balanced_for_balanced_grammars rulesW ['X'] 2 genRng0
     (by decide) (by decide) (by decide) (by decide)⟩

/-- Claim C3: when the interpreter meets `]` with an empty stack it does not
raise; it resets the turtle state (position, heading, length, width, branch
depth) to the safe defaults and interpretation of the remaining string
continues normally (the step itself emits nothing). -/
theorem c3_empty_pop_recovers (ls : LSystemR) (rng : TurtleRng) (st : Turtle)
    (rest : LStr) (h : st.stack = []) :
    (stepChar ls rng st ']').1 = resetTurtle ls st ∧
    runT ls rng st (']' :: rest) = runT ls rng (resetTurtle ls st) rest := by
  have hstep : stepChar ls rng st ']' = (resetTurtle ls st, emptyOut) := by
    rw [stepChar_rbracket]
    exact stepPop_of_empty ls st h
  constructor
  · rw [hstep]
  · rw [runT, hstep]
    simp [outAppend_emptyOut_left]

/-- Witness for C3 at a concrete empty-stack state. -/
theorem c3_empty_pop_recovers_witness :
    (initTurtle lsDemo).stack = [] ∧
    ((stepChar lsDemo turtleRng0 (initTurtle lsDemo) ']').1 =
       resetTurtle lsDemo (initTurtle lsDemo) ∧
     runT lsDemo turtleRng0 (initTurtle lsDemo) (']' :: ['F']) =
       runT lsDemo turtleRng0 (resetTurtle lsDemo (initTurtle lsDemo)) ['F']) :=
  ⟨rfl, c3_empty_pop_recovers lsDemo turtleRng0 (initTurtle lsDemo) ['F'] rfl⟩

/-- Claim C4: every result of tree placement is pairwise at least
`min_distance` apart in the (X,Z) plane; each tree consumes at most 50
placement attempts (draw indices advance by at most 50 per tree), and trees
that cannot be placed are skipped, so the returned list may be shorter than
the requested count but the batch never fails. -/
theorem c4_placement_safe (minDistance : ℝ) (rng : ℕ → ℝ × ℝ) (count : ℕ) :
    farApart minDistance (generateTreePositions minDistance rng count) ∧
    (generateTreePositions minDistance rng count).length ≤ count ∧
    (∀ (k : ℕ) (positions : List (ℝ × ℝ)),
      (tryPlace minDistance rng positions k 50).2 ≤ k + 50) := by
  refine ⟨?_, ?_, ?_⟩
  · exact placeLoop_farApart minDistance rng count 0 [] List.Pairwise.nil
  · have := placeLoop_length minDistance rng count 0 []
    simpa [generateTreePositions] using this
  · intro k positions
    exact tryPlace_draws_le minDistance rng positions 50 k

/-- Counterexample to C5: the stochastic `F` override is commented out in
`LSystem.generate`; with the rule `F -> FF` and one generation, the output is
exactly the rule replacement `"FF"`, never one of the claimed micro-patterns
(the embedded expansion loop, faithfully translated from the source, consumes
no randomness at all). -/
theorem c5_counterexample :
    lsGenerate [('F', ['F', 'F'])] ['F'] 1 genRng0 = ['F', 'F'] := by
  decide

/-- Claim C5 (amended): during each expansion generation every occurrence is
rewritten deterministically — `F` included — to its rule replacement (or
copied unchanged); no stochastic override exists in the live code, the
expansion being exactly the concatenation of the per-character images. -/
theorem c5_no_stochastic_override (rules : Rules) (s : LStr) :
    applyRules rules s = (s.map (applyRulesChar rules)).flatten := by
  induction s with
  | nil => rfl
  | cons c rest ih =>
    rw [applyRules_cons, List.map_cons, List.flatten_cons, ih]

/-- Counterexample to C6: with generations = 0 the axiom `"FFFF"` is
classified too simple (short string with more than three `F`s) and the
corrective `"FFF"` replacement rewrites it, so `generate` does not return
every axiom unchanged. -/
theorem c6_counterexample :
    lsGenerate [] ['F', 'F', 'F', 'F'] 0 genRng0 ≠ ['F', 'F', 'F', 'F'] := by
  decide

/-- Claim C6 (amended): with generations = 0, `LSystem.generate` returns the
axiom unchanged for every axiom that the too-simple detector does not fire
on (the corrective pass runs even when no expansion happened, so axioms
classified too simple are rewritten). -/
theorem c6_gen_zero_axiom (rules : Rules) (axiomStr : LStr) (rng : GenRng)
    (h : isTooSimple axiomStr = false) :
    lsGenerate rules axiomStr 0 rng = axiomStr := by
  simp only [lsGenerate]
  rw [show generateLoop rules axiomStr 0 = axiomStr from rfl, h]
  simp

/-- Witness for C6 at a concrete non-simple axiom. -/
theorem c6_gen_zero_axiom_witness :
    isTooSimple ['X', 'F'] = false ∧
    lsGenerate [] ['X', 'F'] 0 genRng0 = ['X', 'F'] :=
  ⟨by decide, c6_gen_zero_axiom [] ['X', 'F'] genRng0 (by decide)⟩

/-- Counterexample to C7: for axiom `"F"`, empty rules and five generations,
expansion yields `"F"`, but the too-simple detector does **not** fire (one
`F` fails every threshold), so the final string is `"F"` and contains no
branch symbol at all, contradicting the claimed corrective outcome. -/
theorem c7_counterexample :
    lsGenerate [] ['F'] 5 genRng0 = ['F'] ∧
    (lsGenerate [] ['F'] 5 genRng0).count '[' +
      (lsGenerate [] ['F'] 5 genRng0).count ']' = 0 := by
  constructor
  · decide
  · decide

/-- Claim C7 (amended): for axiom `"F"`, empty rules and five generations,
expansion yields `"F"` unchanged for every RNG, because
`_is_too_simple "F"` is false (its thresholds require more than three `F`s in
short strings), so no complexity is injected and the result has no branch
symbols. -/
theorem c7_too_simple_not_fired (rng : GenRng) :
    lsGenerate [] ['F'] 5 rng = ['F'] ∧ isTooSimple ['F'] = false := by
  constructor
  · simp only [lsGenerate]
    rw [show generateLoop [] ['F'] 5 = ['F'] from rfl,
      show isTooSimple ['F'] = false from rfl]
    simp
  · rfl

/-- Counterexample to C8 as stated: no renormalization follows the rotation —
processing `+` on a state whose heading has norm 2 leaves a stored heading of
squared norm 4, where the claimed renormalization would give norm 1. -/
theorem c8_counterexample :
    normSq ((stepChar lsDemo turtleRng0 turtleNonUnit '+').1.direction) ≠ 1 := by
  rw [stepChar_plus]
  show normSq (rotateY turtleNonUnit.direction lsDemo.angle) ≠ 1
  rw [show turtleNonUnit.direction = (⟨0, 2, 0⟩ : V3) from rfl,
    show lsDemo.angle = (0 : ℝ) from rfl, rotateY]
  norm_num [normSq, Real.cos_zero, Real.sin_zero]

/-- Claim C8 (amended): rotation symbols apply the standard 3×3 rotation
matrices to the heading with no explicit renormalization; because the
matrices preserve the norm exactly and the initial heading is the unit up
vector, the stored heading still has (squared) norm 1 after processing any
instruction string — in particular after every rotation command. -/
theorem c8_heading_stays_unit (ls : LSystemR) (rng : TurtleRng) (s : LStr) :
    normSq ((runT ls rng (initTurtle ls) s).2.direction) = 1 :=
  (runT_dirInv ls rng s (initTurtle ls) (initTurtle_dirInv ls)).1

/-- Counterexample to C9: constructing an `LSystem` with `scale = 2` (outside
the open interval (0,1)) is not rejected — `__init__` performs no validation
and happily stores the out-of-range scale. -/
theorem c9_counterexample :
    (lsInit [] [] 0 2 (1/10) (1/20) ⟨11/20, 27/100, 7/100⟩
        (LeafColorArg.fixed ⟨0, 4/5, 0⟩) initRng1).scale = 2 ∧
    ¬ (lsInit [] [] 0 2 (1/10) (1/20) ⟨11/20, 27/100, 7/100⟩
        (LeafColorArg.fixed ⟨0, 4/5, 0⟩) initRng1).scale < 1 := by
  constructor
  · show (2 : ℝ) * initRng1.scaleJitter = 2
    rw [show initRng1.scaleJitter = (1 : ℝ) from rfl]
    norm_num
  · show ¬ (2 : ℝ) * initRng1.scaleJitter < 1
    rw [show initRng1.scaleJitter = (1 : ℝ) from rfl]
    norm_num

/-- Claim C9 (amended): `LSystem.__init__` performs no validation whatsoever:
for every input — any scale (also outside (0,1)) and any angle — construction
succeeds and simply stores the jittered scale and angle and the given axiom
and rules. -/
theorem c9_constructor_never_rejects (axiomStr : LStr) (rules : Rules)
    (angle scale initialLength initialWidth : ℝ) (trunkColor : V3)
    (leafColor : LeafColorArg) (rng : InitRng) :
    (lsInit axiomStr rules angle scale initialLength initialWidth trunkColor
        leafColor rng).scale = scale * rng.scaleJitter ∧
    (lsInit axiomStr rules angle scale initialLength initialWidth trunkColor
        leafColor rng).angle = angle + rng.angleJitter ∧
    (lsInit axiomStr rules angle scale initialLength initialWidth trunkColor
        leafColor rng).axiomStr = axiomStr ∧
    (lsInit axiomStr rules angle scale initialLength initialWidth trunkColor
        leafColor rng).rules = rules :=
  ⟨rfl, rfl, rfl, rfl⟩

/-- Claim C10: each of the rotation helpers `_rotate_x`, `_rotate_y`,
`_rotate_z` preserves the Euclidean norm of its input exactly (over the
reals), which is why the heading stays unit length with no explicit
renormalization. -/
theorem c10_rotations_preserve_norm (v : V3) (a : ℝ) :
    vnorm (rotateX v a) = vnorm v ∧ vnorm (rotateY v a) = vnorm v ∧
    vnorm (rotateZ v a) = vnorm v := by
  refine ⟨?_, ?_, ?_⟩
  · rw [vnorm, vnorm, normSq_rotateX]
  · rw [vnorm, vnorm, normSq_rotateY]
  · rw [vnorm, vnorm, normSq_rotateZ]

end FF
